import Mathlib

/-!
# Verification of the mantrix-ai roadmap merge engine and auto-scheduler

Shallow embedding of the roadmap-merge core of the repository: the
`POST /api/v1/roadmap/merge/preview` handler (branch concatenation,
title-dedup, statistics), the `POST /api/v1/roadmap/merge` handler, and the
`generateAutoSchedule` helper (core-first stable sort, weekday walk, greedy
day packing with a 30-day cap).

Modelling conventions:
* JavaScript numbers are modelled as exact rationals (`ℚ`).  The special
  values produced by division by zero (`Infinity`, `-Infinity`, `NaN`) are
  modelled explicitly by the `JsNum` type where the code can produce them
  (the `efficiency_gain` statistic).
* Calendar dates are modelled as day numbers (days since the Unix epoch,
  `ℤ`), assuming a UTC server clock, so `Date.getDay` becomes arithmetic
  modulo 7 (day 0, 1970-01-01, was a Thursday) and
  `date.toISOString().split("T")[0]` becomes the day number itself.
  `setDate(getDate() + dayOffset)` is exactly `start + dayOffset` on day
  numbers.
* `Array.prototype.sort` is guaranteed stable by ECMA-262 (ES2019); it is
  modelled by the stable `List.mergeSort` with the source's comparator.
-/

namespace Mantrix

/-! ## Data model (shared/schema.ts) -/

/-- The `VideoModule` interface of shared/schema.ts (a learning unit). -/
structure VideoModule where
  id : String
  title : String
  duration : ℚ
  isCore : Bool
  deriving DecidableEq

/-- The `RoadmapBranch` interface of shared/schema.ts. -/
structure RoadmapBranch where
  id : String
  title : String
  videos : List VideoModule
  estimatedDuration : ℚ
  deriving DecidableEq

/-- The `Roadmap` interface of shared/schema.ts (fields not read by the merge core —
`description`, `userId`, timestamps — are omitted). -/
structure Roadmap where
  id : String
  title : String
  estimatedDuration : ℚ
  branches : List RoadmapBranch
  deriving DecidableEq

/-- The `CalendarEvent` interface of shared/schema.ts: a video spread together with its
`branch_title` and `scheduled_time` tags. -/
structure CalendarEvent where
  id : String
  title : String
  duration : ℚ
  isCore : Bool
  branch_title : String
  scheduled_time : String
  deriving DecidableEq

/-- A video tagged with the title of its source branch
(`{...video, branch_title: branch.title}` in `generateAutoSchedule`). -/
structure TaggedVideo where
  id : String
  title : String
  duration : ℚ
  isCore : Bool
  branch_title : String
  deriving DecidableEq

/-! ## JavaScript number values

The statistic `efficiency_gain: Math.round((durationSaved / totalDuration) * 100) || 0`
can produce the IEEE special values when `totalDuration` is `0`.  `JsNum`
models a JavaScript number that is either finite (an exact rational) or one
of those special values. -/

inductive JsNum where
  | fin (q : ℚ)
  | posInf
  | negInf
  | nan
  deriving DecidableEq

/-- JavaScript division `a / b` on numbers, for finite operands: division by
zero gives `NaN` (for `0 / 0`) or a signed infinity. -/
def jsDiv (a b : ℚ) : JsNum :=
  if b = 0 then
    if a = 0 then .nan else if 0 < a then .posInf else .negInf
  else .fin (a / b)

/-- JavaScript multiplication by the positive literal `100`. -/
def jsMul100 : JsNum → JsNum
  | .fin q => .fin (q * 100)
  | .posInf => .posInf
  | .negInf => .negInf
  | .nan => .nan

/-- Model of `Math.round`: rounds a finite value half towards `+∞`
(`Math.round(x) = ⌊x + 0.5⌋`); fixes `NaN` and the infinities. -/
def jsRound : JsNum → JsNum
  | .fin q => .fin ((⌊q + 1 / 2⌋ : ℤ) : ℚ)
  | .posInf => .posInf
  | .negInf => .negInf
  | .nan => .nan

/-- Model of `x || 0`: replaces the falsy values (`NaN`, `0`) by `0`; any other
value — the infinities included — is truthy and kept. -/
def jsOr0 : JsNum → JsNum
  | .nan => .fin 0
  | .fin q => .fin q
  | .posInf => .posInf
  | .negInf => .negInf

/-- Mirror of `Math.round((durationSaved / totalDuration) * 100) || 0`
(part_000 line 174). -/
def efficiencyGain (durationSaved totalDuration : ℚ) : JsNum :=
  jsOr0 (jsRound (jsMul100 (jsDiv durationSaved totalDuration)))

/-! ## Merge engine (preview handler, part_000 lines 131–177) -/

/-- Mirror of `validRoadmaps.reduce((sum, r) => sum + r.estimatedDuration, 0)`
(lines 141–144). -/
def totalDuration (validRoadmaps : List Roadmap) : ℚ :=
  validRoadmaps.foldl (fun sum r => sum + r.estimatedDuration) 0

/-- Mirror of `validRoadmaps.flatMap((r) => r.branches)` (line 145). -/
def allBranches (validRoadmaps : List Roadmap) : List RoadmapBranch :=
  validRoadmaps.flatMap (·.branches)

/-- Mirror of `allBranches.filter((branch, index) => allBranches.findIndex((b) => b.title === branch.title) === index)`
(lines 148–151): keep a branch exactly when its index is the first index
holding its title. -/
def uniqueBranches (allBs : List RoadmapBranch) : List RoadmapBranch :=
  (allBs.enum.filter fun p =>
    allBs.findIdx (fun b => b.title == p.2.title) == p.1).map (·.2)

/-- Mirror of `uniqueBranches.reduce((sum, b) => sum + b.estimatedDuration, 0)`
(lines 153–156). -/
def optimizedDuration (uniqueBs : List RoadmapBranch) : ℚ :=
  uniqueBs.foldl (fun sum b => sum + b.estimatedDuration) 0

/-- The `preview` object of the preview response (lines 160–166). -/
structure MergePreview where
  id : String
  title : String
  description : String
  estimatedDuration : ℚ
  branches : List RoadmapBranch
  deriving DecidableEq

/-- The `statistics` object of the preview response (lines 167–175). -/
structure MergeStatistics where
  original_roadmaps : ℕ
  original_duration : ℚ
  final_duration : ℚ
  duration_saved : ℚ
  original_branches : ℕ
  final_branches : ℕ
  efficiency_gain : JsNum
  deriving DecidableEq

/-- Body of the `POST /api/v1/roadmap/merge/preview` handler after id
resolution (part_000 lines 140–176), as a pure function of the resolved
roadmaps. -/
def mergePreviewOf (validRoadmaps : List Roadmap) : MergePreview × MergeStatistics :=
  let mergedTitle := "Merged: " ++ String.intercalate " + " (validRoadmaps.map (·.title))
  let total := totalDuration validRoadmaps
  let allBs := allBranches validRoadmaps
  let uniqueBs := uniqueBranches allBs
  let optimized := optimizedDuration uniqueBs
  let durationSaved := total - optimized
  (⟨"preview", mergedTitle,
    "Intelligent merge of " ++ toString validRoadmaps.length ++ " learning tracks",
    optimized, uniqueBs⟩,
   ⟨validRoadmaps.length, total, optimized, durationSaved,
    allBs.length, uniqueBs.length, efficiencyGain durationSaved total⟩)

/-- The preview handler: resolve each id through `storage.getRoadmap`
(modelled as a partial map), silently drop unresolved ids
(`roadmaps.filter(Boolean)`, lines 134–138), then run the merge engine.
The source has no minimum-count check: the function is total. -/
def previewHandler (store : String → Option Roadmap) (roadmap_ids : List String) :
    MergePreview × MergeStatistics :=
  mergePreviewOf (roadmap_ids.filterMap store)

/-! ## Scheduler (`generateAutoSchedule`, part_000 lines 470–525) -/

/-- Mirror of `roadmap.branches.flatMap((branch) => branch.videos.map((video) => ({...video, branch_title: branch.title})))`
(lines 476–481). -/
def allVideos (branches : List RoadmapBranch) : List TaggedVideo :=
  branches.flatMap fun branch =>
    branch.videos.map fun video =>
      ⟨video.id, video.title, video.duration, video.isCore, branch.title⟩

/-- The sort comparator `(a, b) => (b.isCore ? 1 : 0) - (a.isCore ? 1 : 0)`
(line 484). -/
def coreCompare (a b : TaggedVideo) : ℤ :=
  (if b.isCore then 1 else 0) - (if a.isCore then 1 else 0)

/-- Mirror of `allVideos.sort((a, b) => (b.isCore ? 1 : 0) - (a.isCore ? 1 : 0))`:
`Array.prototype.sort` is stable (ECMA-262), and an element `a` may be
placed before `b` exactly when the comparator is non-positive; modelled by
the stable `List.mergeSort`. -/
def sortCoreFirst (vs : List TaggedVideo) : List TaggedVideo :=
  vs.mergeSort fun a b => decide (coreCompare a b ≤ 0)

/-- Model of `scheduleDate.getDay()` on the day number `d` (days since the epoch,
UTC): day `0` (1970-01-01) was a Thursday, so the JavaScript weekday
(0 = Sunday, …, 6 = Saturday) is `(d + 4) mod 7`. -/
def getDay (d : ℤ) : ℤ := (d + 4) % 7

/-- Mirror of `{...video, scheduled_time: "09:00"}` (lines 506–509). -/
def toEvent (v : TaggedVideo) : CalendarEvent :=
  ⟨v.id, v.title, v.duration, v.isCore, v.branch_title, "09:00"⟩

/-- The inner packing loop of `generateAutoSchedule` (lines 500–515):
starting from the accumulated duration `acc` (`dailyDuration`), take videos
in order while `acc < dailySeconds` and the next video still fits
(`acc + video.duration ≤ dailySeconds`); stop at the first video that does
not fit.  Returns the day's events and the remaining videos. -/
def packDay (dailySeconds : ℚ) (acc : ℚ) : List TaggedVideo → List CalendarEvent × List TaggedVideo
  | [] => ([], [])
  | v :: rest =>
    if acc < dailySeconds then
      if acc + v.duration ≤ dailySeconds then
        let r := packDay dailySeconds (acc + v.duration) rest
        (toEvent v :: r.1, r.2)
      else ([], v :: rest)
    else ([], v :: rest)

/-- The outer day loop of `generateAutoSchedule` (lines 486–522): while
videos remain and fewer than 30 calendar days have elapsed, skip Saturdays
and Sundays, pack one day greedily, and record the day under its date key
when it received at least one video.  The calendar is an association list
from day numbers to the day's events, in chronological order. -/
def scheduleLoop (dailySeconds : ℚ) (start : ℤ) (dayOffset : ℕ) (vs : List TaggedVideo) :
    List (ℤ × List CalendarEvent) :=
  if h : vs.length = 0 ∨ 30 ≤ dayOffset then []
  else
    let d : ℤ := start + dayOffset
    if getDay d = 0 ∨ getDay d = 6 then
      scheduleLoop dailySeconds start (dayOffset + 1) vs
    else
      let p := packDay dailySeconds 0 vs
      let rest := scheduleLoop dailySeconds start (dayOffset + 1) p.2
      if p.1 = [] then rest else (d, p.1) :: rest
termination_by 30 - dayOffset
decreasing_by
  all_goals simp only [not_or, Nat.not_le] at h; omega

/-- Mirror of `generateAutoSchedule(roadmap, dailyHours)` (lines 470–525): flatten and
tag the videos, stable-sort core videos first, and walk the calendar from
the start day (`new Date()`, the current day) with the daily budget
`dailySeconds = dailyHours * 3600`. -/
def generateAutoSchedule (branches : List RoadmapBranch) (dailyHours : ℚ) (start : ℤ) :
    List (ℤ × List CalendarEvent) :=
  scheduleLoop (dailyHours * 3600) start 0 (sortCoreFirst (allVideos branches))

/-- All events of a calendar, in calendar order: the concatenation of the
per-day event lists. -/
def calendarEvents (cal : List (ℤ × List CalendarEvent)) : List CalendarEvent :=
  cal.flatMap (·.2)

/-! ## Merge handler (`POST /api/v1/roadmap/merge`, part_000 lines 179–215) -/

/-- The request body of the merge endpoint.  `daily_study_hours` is
`Option ℚ` because the field may be absent from the JSON body. -/
structure MergeRequest where
  roadmap_ids : List String
  schedule_mode : String
  calendar_view : Bool
  daily_study_hours : Option ℚ
  deriving DecidableEq

/-- Mirror of `daily_study_hours || 1.0` (line 195): an absent field and the falsy
number `0` fall back to the default `1.0`; every other number — negative
values included — is kept. -/
def effectiveDailyHours : Option ℚ → ℚ
  | none => 1
  | some h => if h = 0 then 1 else h

/-- The merge response (lines 209–214), restricted to the fields the core
computes (the persisted entity echoes the preview fields; the generated id
and timestamp are the repository's). -/
structure MergeResponse where
  title : String
  description : String
  estimatedDuration : ℚ
  branches : List RoadmapBranch
  mergedFrom : List String
  calendar : Option (List (ℤ × List CalendarEvent))
  source_count : ℕ
  schedule_mode : String
  calendar_enabled : Bool
  deriving DecidableEq

/-- The `POST /api/v1/roadmap/merge` handler (lines 179–215): re-run the
preview (the source re-invokes the preview endpoint in-process), generate a
calendar when `schedule_mode === "auto" && calendar_view`, and build the
merged roadmap.  The source performs no validation of `roadmap_ids` or
`daily_study_hours`: the handler is total and has no rejection path. -/
def mergeHandler (store : String → Option Roadmap) (req : MergeRequest) (start : ℤ) :
    MergeResponse :=
  let pv := (previewHandler store req.roadmap_ids).1
  let calendar :=
    if req.schedule_mode = "auto" ∧ req.calendar_view then
      some (generateAutoSchedule pv.branches (effectiveDailyHours req.daily_study_hours) start)
    else none
  ⟨pv.title, pv.description, pv.estimatedDuration, pv.branches, req.roadmap_ids,
   calendar, req.roadmap_ids.length, req.schedule_mode, req.calendar_view⟩

end Mantrix

namespace Mantrix

theorem coreLe_iff (a b : TaggedVideo) :
    decide (coreCompare a b ≤ 0) = true ↔ (b.isCore = true → a.isCore = true) := by
  cases ha : a.isCore <;> cases hb : b.isCore <;> simp [coreCompare, ha, hb]

theorem coreLe_trans (a b c : TaggedVideo) :
    decide (coreCompare a b ≤ 0) = true → decide (coreCompare b c ≤ 0) = true →
    decide (coreCompare a c ≤ 0) = true := by
  simp only [coreLe_iff]
  tauto

theorem coreLe_total (a b : TaggedVideo) :
    (decide (coreCompare a b ≤ 0) || decide (coreCompare b a ≤ 0)) = true := by
  cases ha : a.isCore <;> cases hb : b.isCore <;> simp [coreCompare, ha, hb]

/-- A list in which no non-core element precedes a core element is its core
part followed by its non-core part. -/
theorem pairwise_eq_filter_append {l : List TaggedVideo}
    (h : l.Pairwise fun a b => b.isCore = true → a.isCore = true) :
    l = l.filter (·.isCore) ++ l.filter (fun v => !v.isCore) := by
  induction l with
  | nil => simp
  | cons a t ih =>
    rcases List.pairwise_cons.mp h with ⟨ha, ht⟩
    by_cases hc : a.isCore = true
    · simp only [List.filter_cons, hc]
      simpa using ih ht
    · have hall : ∀ v ∈ t, v.isCore = false := by
        intro v hv
        by_contra hvc
        exact hc (ha v hv (by simpa using hvc))
      have h2 : (a :: t).filter (·.isCore) = [] := by
        rw [List.filter_eq_nil_iff]
        intro v hv
        rcases List.mem_cons.mp hv with rfl | hv
        · simpa using hc
        · simp [hall v hv]
      have h3 : (a :: t).filter (fun v => !v.isCore) = a :: t := by
        rw [List.filter_eq_self]
        intro v hv
        rcases List.mem_cons.mp hv with rfl | hv
        · simpa using hc
        · simp [hall v hv]
      rw [h2, h3]
      simp

/-- The stable sort with the source's comparator moves the core videos to
the front and the non-core videos to the back, each group keeping its
source order. -/
theorem sortCoreFirst_eq (vs : List TaggedVideo) :
    sortCoreFirst vs = vs.filter (·.isCore) ++ vs.filter (fun v => !v.isCore) := by
  unfold sortCoreFirst
  have hperm := List.mergeSort_perm vs (fun a b => decide (coreCompare a b ≤ 0))
  have hsorted := List.sorted_mergeSort coreLe_trans coreLe_total vs
  have hsorted' : (vs.mergeSort (fun a b => decide (coreCompare a b ≤ 0))).Pairwise
      (fun a b => b.isCore = true → a.isCore = true) :=
    hsorted.imp (fun hab => (coreLe_iff _ _).mp hab)
  have hcoresub : List.Sublist (vs.filter (·.isCore))
      (vs.mergeSort (fun a b => decide (coreCompare a b ≤ 0))) := by
    apply List.sublist_mergeSort coreLe_trans coreLe_total
    · apply List.pairwise_of_forall_mem_list
      intro a ha b hb
      rw [coreLe_iff]
      intro _
      exact (List.mem_filter.mp ha).2
    · exact List.filter_sublist vs
  have hnonsub : List.Sublist (vs.filter (fun v => !v.isCore))
      (vs.mergeSort (fun a b => decide (coreCompare a b ≤ 0))) := by
    apply List.sublist_mergeSort coreLe_trans coreLe_total
    · apply List.pairwise_of_forall_mem_list
      intro a ha b hb
      rw [coreLe_iff]
      intro hbc
      have := (List.mem_filter.mp hb).2
      simp [hbc] at this
    · exact List.filter_sublist vs
  have hcore : (vs.mergeSort (fun a b => decide (coreCompare a b ≤ 0))).filter (·.isCore)
      = vs.filter (·.isCore) := by
    have h1 := hcoresub.filter (·.isCore)
    rw [List.filter_filter] at h1
    simp only [Bool.and_self] at h1
    have hlen : ((vs.mergeSort (fun a b => decide (coreCompare a b ≤ 0))).filter (·.isCore)).length
        = (vs.filter (·.isCore)).length := (hperm.filter _).length_eq
    exact (h1.eq_of_length hlen.symm).symm
  have hnon : (vs.mergeSort (fun a b => decide (coreCompare a b ≤ 0))).filter (fun v => !v.isCore)
      = vs.filter (fun v => !v.isCore) := by
    have h1 := hnonsub.filter (fun v => !v.isCore)
    rw [List.filter_filter] at h1
    simp only [Bool.and_self] at h1
    have hlen : ((vs.mergeSort (fun a b => decide (coreCompare a b ≤ 0))).filter (fun v => !v.isCore)).length
        = (vs.filter (fun v => !v.isCore)).length := (hperm.filter _).length_eq
    exact (h1.eq_of_length hlen.symm).symm
  calc vs.mergeSort (fun a b => decide (coreCompare a b ≤ 0))
      = _ ++ _ := pairwise_eq_filter_append hsorted'
    _ = vs.filter (·.isCore) ++ vs.filter (fun v => !v.isCore) := by rw [hcore, hnon]

end Mantrix

namespace Mantrix

theorem packDay_split (b : ℚ) : ∀ (acc : ℚ) (vs : List TaggedVideo),
    ∃ pre, vs = pre ++ (packDay b acc vs).2 ∧ (packDay b acc vs).1 = pre.map toEvent := by
  intro acc vs
  induction vs generalizing acc with
  | nil => exact ⟨[], by simp [packDay]⟩
  | cons v rest ih =>
    by_cases h1 : acc < b
    · by_cases h2 : acc + v.duration ≤ b
      · obtain ⟨pre, hs, he⟩ := ih (acc + v.duration)
        refine ⟨v :: pre, ?_, ?_⟩
        · simpa [packDay, h1, h2] using hs
        · simp [packDay, h1, h2, he]
      · exact ⟨[], by simp [packDay, h1, h2]⟩
    · exact ⟨[], by simp [packDay, h1]⟩

theorem packDay_sum (b : ℚ) : ∀ (acc : ℚ) (vs : List TaggedVideo),
    (packDay b acc vs).1 ≠ [] →
    acc + (((packDay b acc vs).1).map (·.duration)).sum ≤ b := by
  intro acc vs
  induction vs generalizing acc with
  | nil => simp [packDay]
  | cons v rest ih =>
    intro hne
    by_cases h1 : acc < b
    · by_cases h2 : acc + v.duration ≤ b
      · simp only [packDay, if_pos h1, if_pos h2, List.map_cons, List.sum_cons]
        by_cases h3 : (packDay b (acc + v.duration) rest).1 = []
        · simp [toEvent, h3]
          linarith
        · have := ih (acc + v.duration) h3
          simp only [toEvent]
          linarith
      · simp [packDay, h1, h2] at hne
    · simp [packDay, h1] at hne

theorem packDay_event_le (b : ℚ) : ∀ (acc : ℚ) (vs : List TaggedVideo),
    0 ≤ acc → (∀ v ∈ vs, 0 ≤ v.duration) →
    ∀ e ∈ (packDay b acc vs).1, e.duration ≤ b := by
  intro acc vs
  induction vs generalizing acc with
  | nil => simp [packDay]
  | cons v rest ih =>
    intro hacc hnn e he
    by_cases h1 : acc < b
    · by_cases h2 : acc + v.duration ≤ b
      · simp only [packDay, if_pos h1, if_pos h2, List.mem_cons] at he
        rcases he with rfl | he
        · simp only [toEvent]
          have : 0 ≤ v.duration := hnn v (by simp)
          linarith
        · exact ih (acc + v.duration)
            (by have := hnn v (by simp); linarith)
            (fun w hw => hnn w (by simp [hw])) e he
      · simp [packDay, h1, h2] at he
    · simp [packDay, h1] at he

theorem scheduleLoop_keys_weekday (b : ℚ) (s : ℤ) (off : ℕ) (vs : List TaggedVideo) :
    ∀ e ∈ scheduleLoop b s off vs, getDay e.1 ≠ 0 ∧ getDay e.1 ≠ 6 := by
  induction off, vs using scheduleLoop.induct b s with
  | case1 off vs h =>
    rw [scheduleLoop.eq_def]
    simp only [dif_pos h]
    simp
  | case2 off vs h d hw ih =>
    rw [scheduleLoop.eq_def]
    simp only [dif_neg h, if_pos hw]
    exact ih
  | case3 off vs h d hw p hp ih =>
    rw [scheduleLoop.eq_def]
    simp only [dif_neg h, if_neg hw, if_pos hp]
    exact ih
  | case4 off vs h d hw p hp ih =>
    rw [scheduleLoop.eq_def]
    simp only [dif_neg h, if_neg hw, if_neg hp]
    intro e he
    rcases List.mem_cons.mp he with rfl | he
    · exact ⟨fun hc => hw (Or.inl hc), fun hc => hw (Or.inr hc)⟩
    · exact ih e he


theorem scheduleLoop_keys_ge (b : ℚ) (s : ℤ) (off : ℕ) (vs : List TaggedVideo) :
    ∀ e ∈ scheduleLoop b s off vs, s + off ≤ e.1 := by
  induction off, vs using scheduleLoop.induct b s with
  | case1 off vs h =>
    rw [scheduleLoop.eq_def]
    simp only [dif_pos h]
    simp
  | case2 off vs h d hw ih =>
    rw [scheduleLoop.eq_def]
    simp only [dif_neg h, if_pos hw]
    intro e he
    have := ih e he
    push_cast at this ⊢
    omega
  | case3 off vs h d hw p hp ih =>
    rw [scheduleLoop.eq_def]
    simp only [dif_neg h, if_neg hw, if_pos hp]
    intro e he
    have := ih e he
    push_cast at this ⊢
    omega
  | case4 off vs h d hw p hp ih =>
    rw [scheduleLoop.eq_def]
    simp only [dif_neg h, if_neg hw, if_neg hp]
    intro e he
    rcases List.mem_cons.mp he with rfl | he
    · simp
    · have := ih e he
      push_cast at this ⊢
      omega

theorem scheduleLoop_keys_sorted (b : ℚ) (s : ℤ) (off : ℕ) (vs : List TaggedVideo) :
    (scheduleLoop b s off vs).Pairwise (fun e f => e.1 < f.1) := by
  induction off, vs using scheduleLoop.induct b s with
  | case1 off vs h =>
    rw [scheduleLoop.eq_def]
    simp only [dif_pos h]
    simp
  | case2 off vs h d hw ih =>
    rw [scheduleLoop.eq_def]
    simp only [dif_neg h, if_pos hw]
    exact ih
  | case3 off vs h d hw p hp ih =>
    rw [scheduleLoop.eq_def]
    simp only [dif_neg h, if_neg hw, if_pos hp]
    exact ih
  | case4 off vs h d hw p hp ih =>
    rw [scheduleLoop.eq_def]
    simp only [dif_neg h, if_neg hw, if_neg hp]
    refine List.pairwise_cons.mpr ⟨?_, ih⟩
    intro f hf
    have := scheduleLoop_keys_ge b s (off + 1) p.2 f hf
    push_cast at this ⊢
    omega

theorem scheduleLoop_length_le (b : ℚ) (s : ℤ) (off : ℕ) (vs : List TaggedVideo) :
    (scheduleLoop b s off vs).length ≤ 30 - off := by
  induction off, vs using scheduleLoop.induct b s with
  | case1 off vs h =>
    rw [scheduleLoop.eq_def]
    simp only [dif_pos h]
    simp
  | case2 off vs h d hw ih =>
    rw [scheduleLoop.eq_def]
    simp only [dif_neg h, if_pos hw]
    omega
  | case3 off vs h d hw p hp ih =>
    rw [scheduleLoop.eq_def]
    simp only [dif_neg h, if_neg hw, if_pos hp]
    have ih' : (scheduleLoop b s (off + 1) (packDay b 0 vs).2).length ≤ 30 - (off + 1) := ih
    omega
  | case4 off vs h d hw p hp ih =>
    rw [scheduleLoop.eq_def]
    simp only [dif_neg h, if_neg hw, if_neg hp, List.length_cons]
    have ih' : (scheduleLoop b s (off + 1) (packDay b 0 vs).2).length ≤ 30 - (off + 1) := ih
    simp only [not_or, Nat.not_le] at h
    omega

theorem scheduleLoop_values_ne_nil (b : ℚ) (s : ℤ) (off : ℕ) (vs : List TaggedVideo) :
    ∀ e ∈ scheduleLoop b s off vs, e.2 ≠ [] := by
  induction off, vs using scheduleLoop.induct b s with
  | case1 off vs h =>
    rw [scheduleLoop.eq_def]
    simp only [dif_pos h]
    simp
  | case2 off vs h d hw ih =>
    rw [scheduleLoop.eq_def]
    simp only [dif_neg h, if_pos hw]
    exact ih
  | case3 off vs h d hw p hp ih =>
    rw [scheduleLoop.eq_def]
    simp only [dif_neg h, if_neg hw, if_pos hp]
    exact ih
  | case4 off vs h d hw p hp ih =>
    rw [scheduleLoop.eq_def]
    simp only [dif_neg h, if_neg hw, if_neg hp]
    intro e he
    rcases List.mem_cons.mp he with rfl | he
    · exact hp
    · exact ih e he

theorem scheduleLoop_day_sum_le (b : ℚ) (s : ℤ) (off : ℕ) (vs : List TaggedVideo) :
    ∀ e ∈ scheduleLoop b s off vs, ((e.2.map (·.duration)).sum ≤ b) := by
  induction off, vs using scheduleLoop.induct b s with
  | case1 off vs h =>
    rw [scheduleLoop.eq_def]
    simp only [dif_pos h]
    simp
  | case2 off vs h d hw ih =>
    rw [scheduleLoop.eq_def]
    simp only [dif_neg h, if_pos hw]
    exact ih
  | case3 off vs h d hw p hp ih =>
    rw [scheduleLoop.eq_def]
    simp only [dif_neg h, if_neg hw, if_pos hp]
    exact ih
  | case4 off vs h d hw p hp ih =>
    rw [scheduleLoop.eq_def]
    simp only [dif_neg h, if_neg hw, if_neg hp]
    intro e he
    rcases List.mem_cons.mp he with rfl | he
    · have := packDay_sum b 0 vs hp
      simpa using this
    · exact ih e he

theorem scheduleLoop_split (b : ℚ) (s : ℤ) (off : ℕ) (vs : List TaggedVideo) :
    ∃ pre rest, vs = pre ++ rest ∧
      calendarEvents (scheduleLoop b s off vs) = pre.map toEvent := by
  induction off, vs using scheduleLoop.induct b s with
  | case1 off vs h =>
    refine ⟨[], vs, by simp, ?_⟩
    rw [scheduleLoop.eq_def]
    simp only [dif_pos h]
    simp [calendarEvents]
  | case2 off vs h d hw ih =>
    obtain ⟨pre, rest, hsplit, hev⟩ := ih
    refine ⟨pre, rest, hsplit, ?_⟩
    rw [scheduleLoop.eq_def]
    simp only [dif_neg h, if_pos hw]
    exact hev
  | case3 off vs h d hw p hp ih =>
    obtain ⟨pre1, hs1, he1⟩ := packDay_split b 0 vs
    obtain ⟨pre2, rest, hsplit, hev⟩ := ih
    have hpre1 : pre1 = [] := by
      have : pre1.map toEvent = [] := by rw [← he1, hp]
      exact List.map_eq_nil_iff.mp this
    refine ⟨pre2, rest, ?_, ?_⟩
    · rw [hs1, hpre1, List.nil_append, hsplit]
    · rw [scheduleLoop.eq_def]
      simp only [dif_neg h, if_neg hw, if_pos hp]
      exact hev
  | case4 off vs h d hw p hp ih =>
    obtain ⟨pre1, hs1, he1⟩ := packDay_split b 0 vs
    obtain ⟨pre2, rest, hsplit, hev⟩ := ih
    refine ⟨pre1 ++ pre2, rest, ?_, ?_⟩
    · rw [hs1, hsplit, List.append_assoc]
    · rw [scheduleLoop.eq_def]
      simp only [dif_neg h, if_neg hw, if_neg hp]
      simp only [calendarEvents, List.flatMap_cons] at *
      rw [he1, hev, List.map_append]

theorem scheduleLoop_event_le (b : ℚ) (s : ℤ) (off : ℕ) (vs : List TaggedVideo) :
    (∀ v ∈ vs, 0 ≤ v.duration) →
    ∀ e ∈ calendarEvents (scheduleLoop b s off vs), e.duration ≤ b := by
  induction off, vs using scheduleLoop.induct b s with
  | case1 off vs h =>
    rw [scheduleLoop.eq_def]
    simp only [dif_pos h]
    simp [calendarEvents]
  | case2 off vs h d hw ih =>
    rw [scheduleLoop.eq_def]
    simp only [dif_neg h, if_pos hw]
    exact ih
  | case3 off vs h d hw p hp ih =>
    intro hnn
    rw [scheduleLoop.eq_def]
    simp only [dif_neg h, if_neg hw, if_pos hp]
    apply ih
    obtain ⟨pre1, hs1, he1⟩ := packDay_split b 0 vs
    intro v hv
    exact hnn v (hs1 ▸ List.mem_append_right pre1 hv)
  | case4 off vs h d hw p hp ih =>
    intro hnn
    have hrest : ∀ v ∈ p.2, v ∈ vs := by
      obtain ⟨pre1, hs1, he1⟩ := packDay_split b 0 vs
      intro v hv
      exact hs1 ▸ List.mem_append_right pre1 hv
    rw [scheduleLoop.eq_def]
    simp only [dif_neg h, if_neg hw, if_neg hp]
    intro e he
    simp only [calendarEvents, List.flatMap_cons, List.mem_append] at he
    rcases he with he | he
    · exact packDay_event_le b 0 vs le_rfl hnn e he
    · exact ih (fun v hv => hnn v (hrest v hv)) e he


theorem foldl_add_map_sum {α : Type} (f : α → ℚ) :
    ∀ (l : List α) (init : ℚ), l.foldl (fun s x => s + f x) init = init + (l.map f).sum := by
  intro l
  induction l with
  | nil => simp
  | cons a t ih =>
    intro init
    simp only [List.foldl_cons, List.map_cons, List.sum_cons, ih (init + f a)]
    ring

theorem totalDuration_eq (rs : List Roadmap) :
    totalDuration rs = (rs.map (·.estimatedDuration)).sum := by
  simpa using foldl_add_map_sum (·.estimatedDuration) rs 0

theorem optimizedDuration_eq (bs : List RoadmapBranch) :
    optimizedDuration bs = (bs.map (·.estimatedDuration)).sum := by
  simpa using foldl_add_map_sum (·.estimatedDuration) bs 0

theorem calendarEvents_sum (cal : List (ℤ × List CalendarEvent)) :
    ((calendarEvents cal).map (·.duration)).sum
      = (cal.map (fun e => (e.2.map (·.duration)).sum)).sum := by
  induction cal with
  | nil => simp [calendarEvents]
  | cons x t ih =>
    simp only [calendarEvents] at ih ⊢
    simp [List.flatMap_cons, ih]

theorem sum_le_length_mul (b : ℚ) :
    ∀ l : List ℚ, (∀ x ∈ l, x ≤ b) → l.sum ≤ (l.length : ℚ) * b := by
  intro l
  induction l with
  | nil => simp
  | cons x t ih =>
    intro hmem
    simp only [List.sum_cons, List.length_cons]
    have hx := hmem x (by simp)
    have ht := ih fun y hy => hmem y (by simp [hy])
    push_cast
    nlinarith [ht]

theorem sum_le_of_forall_le (l : List ℚ) (b : ℚ) (hb : 0 ≤ b)
    (hmem : ∀ x ∈ l, x ≤ b) (hlen : l.length ≤ 30) : l.sum ≤ 30 * b := by
  calc l.sum ≤ (l.length : ℚ) * b := sum_le_length_mul b l hmem
    _ ≤ 30 * b := by
      apply mul_le_mul_of_nonneg_right _ hb
      exact_mod_cast hlen


theorem enum_map_snd_eq {α : Type} (l : List α) : l.enum.map (·.2) = l :=
  List.enum_map_snd l

theorem mem_uniqueBranches_iff {bs : List RoadmapBranch} {b : RoadmapBranch} :
    b ∈ uniqueBranches bs ↔
      ∃ i, ∃ h : i < bs.length, bs[i] = b ∧
        bs.findIdx (fun x => x.title == b.title) = i := by
  unfold uniqueBranches
  simp only [List.mem_map, List.mem_filter]
  constructor
  · rintro ⟨⟨i, x⟩, ⟨hmem, hcond⟩, rfl⟩
    rw [List.mem_enum_iff_getElem?] at hmem
    obtain ⟨h, hx⟩ := List.getElem?_eq_some_iff.mp hmem
    refine ⟨i, h, hx, ?_⟩
    simpa using hcond
  · rintro ⟨i, h, hx, hfind⟩
    refine ⟨(i, b), ⟨?_, ?_⟩, rfl⟩
    · rw [List.mem_enum_iff_getElem?]
      exact List.getElem?_eq_some_iff.mpr ⟨h, hx⟩
    · simpa using hfind

theorem uniqueBranches_sublist (bs : List RoadmapBranch) :
    List.Sublist (uniqueBranches bs) bs := by
  unfold uniqueBranches
  conv_rhs => rw [← enum_map_snd_eq bs]
  exact (List.filter_sublist bs.enum).map (·.2)

theorem uniqueBranches_titles_nodup (bs : List RoadmapBranch) :
    ((uniqueBranches bs).map (·.title)).Nodup := by
  unfold uniqueBranches
  rw [List.map_map]
  have h1 : bs.enum.Pairwise (fun p q : ℕ × RoadmapBranch => p.1 < q.1) := by
    have h0 := List.pairwise_lt_range bs.length
    rw [← List.enum_map_fst bs] at h0
    exact List.pairwise_map.mp h0
  have h2 := h1.filter (fun p => bs.findIdx (fun x => x.title == p.2.title) == p.1)
  have h3 : (bs.enum.filter fun p =>
      bs.findIdx (fun x => x.title == p.2.title) == p.1).Pairwise
      (fun p q => p.2.title ≠ q.2.title) := by
    refine h2.imp_of_mem ?_
    intro p q hp hq hlt hteq
    have hcp : bs.findIdx (fun x => x.title == p.2.title) = p.1 := by
      simpa using (List.mem_filter.mp hp).2
    have hcq : bs.findIdx (fun x => x.title == q.2.title) = q.1 := by
      simpa using (List.mem_filter.mp hq).2
    have hfun : (fun x : RoadmapBranch => x.title == p.2.title)
        = (fun x : RoadmapBranch => x.title == q.2.title) := by
      funext x
      rw [hteq]
    rw [hfun, hcq] at hcp
    omega
  exact h3.map _ (fun a b hab => by simpa using hab)

theorem uniqueBranches_covers {bs : List RoadmapBranch} :
    ∀ b ∈ bs, ∃ b', b' ∈ uniqueBranches bs ∧ b'.title = b.title := by
  intro b hb
  have hex : ∃ x ∈ bs, (x.title == b.title) = true := ⟨b, hb, by simp⟩
  have hlt := List.findIdx_lt_length_of_exists hex
  have hpred : (bs[bs.findIdx fun x => x.title == b.title].title == b.title) = true :=
    @List.findIdx_getElem _ (fun x => x.title == b.title) bs hlt
  have htitle : (bs[bs.findIdx fun x => x.title == b.title]).title = b.title := by
    simpa using hpred
  refine ⟨bs[bs.findIdx fun x => x.title == b.title], ?_, htitle⟩
  rw [mem_uniqueBranches_iff]
  refine ⟨bs.findIdx fun x => x.title == b.title, hlt, rfl, ?_⟩
  have hfun : (fun x : RoadmapBranch =>
      x.title == (bs[bs.findIdx fun x => x.title == b.title]).title)
      = (fun x : RoadmapBranch => x.title == b.title) := by
    funext x
    rw [htitle]
  rw [hfun]

theorem uniqueBranches_of_nodup {bs : List RoadmapBranch}
    (h : (bs.map (·.title)).Nodup) : uniqueBranches bs = bs := by
  unfold uniqueBranches
  have hall : ∀ p ∈ bs.enum,
      (bs.findIdx (fun x => x.title == p.2.title) == p.1) = true := by
    intro p hp
    rw [List.mem_enum_iff_getElem?] at hp
    obtain ⟨hlt, hx⟩ := List.getElem?_eq_some_iff.mp hp
    simp only [beq_iff_eq]
    rw [List.findIdx_eq hlt]
    constructor
    · simp [hx]
    · intro j hj
      simp only [beq_eq_false_iff_ne, ne_eq]
      intro hfalse
      have hjb : j < bs.length := lt_trans hj hlt
      have hpair : bs.Pairwise (fun a b => a.title ≠ b.title) := List.pairwise_map.mp h
      have hne := List.pairwise_iff_getElem.mp hpair j p.1 hjb hlt hj
      rw [hx] at hne
      exact hne hfalse
  rw [List.filter_eq_self.mpr hall, enum_map_snd_eq]

theorem efficiencyGain_of_ne {saved total : ℚ} (h : total ≠ 0) :
    efficiencyGain saved total = .fin ((⌊saved / total * 100 + 1 / 2⌋ : ℤ) : ℚ) := by
  unfold efficiencyGain jsDiv jsMul100 jsRound jsOr0
  simp [h]

theorem efficiencyGain_zero_zero : efficiencyGain 0 0 = .fin 0 := by
  unfold efficiencyGain jsDiv jsMul100 jsRound jsOr0
  simp

theorem efficiencyGain_neg_saved {saved : ℚ} (h : saved < 0) :
    efficiencyGain saved 0 = .negInf := by
  unfold efficiencyGain jsDiv jsMul100 jsRound jsOr0
  simp [h.ne, not_lt.mpr h.le]

theorem efficiencyGain_pos_saved {saved : ℚ} (h : 0 < saved) :
    efficiencyGain saved 0 = .posInf := by
  unfold efficiencyGain jsDiv jsMul100 jsRound jsOr0
  simp [h.ne', h]


theorem sum_map_flatMap (rs : List Roadmap) (f : RoadmapBranch → ℚ) :
    ((rs.flatMap (·.branches)).map f).sum
      = (rs.map (fun r => ((r.branches).map f).sum)).sum := by
  induction rs with
  | nil => simp
  | cons r t ih => simp [List.flatMap_cons, ih]

/-- C1 as stated fails: `original_duration` is the sum of the roadmap-level
`estimatedDuration` fields, not the per-branch sum.  A roadmap whose
`estimatedDuration` (0) disagrees with its branches' total (3600) separates
the two. -/
theorem C1_counterexample :
    (mergePreviewOf [⟨"r1", "R1", 0, [⟨"b1", "A", [], 3600⟩]⟩]).2.original_duration
      ≠ ((allBranches [⟨"r1", "R1", 0, [⟨"b1", "A", [], 3600⟩]⟩]).map
          (·.estimatedDuration)).sum := by
  norm_num [mergePreviewOf, totalDuration, allBranches]

/-- C1 (amended): `original_duration` equals the sum of roadmap-level
`estimatedDuration` over the resolved roadmaps, which equals the per-branch
sum over all branches pre-dedup whenever every source roadmap's
`estimatedDuration` is consistent with its branches; the saved-duration and
efficiency statistics are derived from it. -/
theorem C1_originalDuration (rs : List Roadmap)
    (hcons : ∀ r ∈ rs, r.estimatedDuration = (r.branches.map (·.estimatedDuration)).sum) :
    (mergePreviewOf rs).2.original_duration
        = ((allBranches rs).map (·.estimatedDuration)).sum ∧
    (mergePreviewOf rs).2.duration_saved
        = (mergePreviewOf rs).2.original_duration - (mergePreviewOf rs).2.final_duration ∧
    (mergePreviewOf rs).2.efficiency_gain
        = efficiencyGain (mergePreviewOf rs).2.duration_saved
            (mergePreviewOf rs).2.original_duration := by
  refine ⟨?_, rfl, rfl⟩
  show totalDuration rs = _
  rw [totalDuration_eq, allBranches, sum_map_flatMap]
  congr 1
  exact List.map_congr_left hcons

theorem C1_witness :
    (mergePreviewOf [⟨"r1", "R1", 3600, [⟨"b1", "A", [], 3600⟩]⟩]).2.original_duration
      = ((allBranches [⟨"r1", "R1", 3600, [⟨"b1", "A", [], 3600⟩]⟩]).map
          (·.estimatedDuration)).sum :=
  (C1_originalDuration [⟨"r1", "R1", 3600, [⟨"b1", "A", [], 3600⟩]⟩]
    (by intro r hr; rw [List.mem_singleton] at hr; subst hr; norm_num)).1

/-- C2: the preview's branch list is the concatenation of all source
branches (source order inside each roadmap, then roadmap order) with
exactly the first occurrence of each distinct title kept, matched
case-sensitively; for two roadmaps whose branch titles are all distinct the
result is `R1.branches ++ R2.branches` unchanged. -/
theorem C2_dedup_first_occurrence (rs : List Roadmap) :
    ((mergePreviewOf rs).1.branches = uniqueBranches (allBranches rs)) ∧
    List.Sublist (mergePreviewOf rs).1.branches (allBranches rs) ∧
    ((mergePreviewOf rs).1.branches.map (·.title)).Nodup ∧
    (∀ b ∈ allBranches rs, ∃ b', b' ∈ (mergePreviewOf rs).1.branches ∧ b'.title = b.title) ∧
    (∀ b' ∈ (mergePreviewOf rs).1.branches, ∃ i, ∃ h : i < (allBranches rs).length,
        (allBranches rs)[i] = b' ∧
        ∀ j, j < i → ∀ hj : j < (allBranches rs).length,
          ((allBranches rs)[j]).title ≠ b'.title) ∧
    (∀ r1 r2 : Roadmap, ((r1.branches ++ r2.branches).map (·.title)).Nodup →
        (mergePreviewOf [r1, r2]).1.branches = r1.branches ++ r2.branches) := by
  refine ⟨rfl, uniqueBranches_sublist _, uniqueBranches_titles_nodup _,
    uniqueBranches_covers, ?_, ?_⟩
  · intro b' hb'
    rw [show (mergePreviewOf rs).1.branches = uniqueBranches (allBranches rs) from rfl,
      mem_uniqueBranches_iff] at hb'
    obtain ⟨i, h, hx, hfind⟩ := hb'
    refine ⟨i, h, hx, ?_⟩
    intro j hji hj hteq
    have hj2 : j < (allBranches rs).findIdx fun x => x.title == b'.title := by
      rw [hfind]
      exact hji
    have hf := List.not_of_lt_findIdx hj2
    simp only [beq_eq_false_iff_ne, ne_eq] at hf
    exact hf hteq
  · intro r1 r2 hnd
    have hab : allBranches [r1, r2] = r1.branches ++ r2.branches := by
      simp [allBranches]
    show uniqueBranches (allBranches [r1, r2]) = _
    rw [hab]
    exact uniqueBranches_of_nodup hnd


/-- C9 as stated fails: with `original_duration = 0` but a non-zero
`duration_saved` (a source roadmap whose own `estimatedDuration` is 0 while
its branches carry 3600), the JavaScript expression evaluates to
`-Infinity`, which is truthy, so the `|| 0` guard does not yield 0. -/
theorem C9_counterexample :
    (mergePreviewOf [⟨"r1", "R1", 0, [⟨"b1", "A", [], 3600⟩]⟩]).2.original_duration = 0 ∧
    (mergePreviewOf [⟨"r1", "R1", 0, [⟨"b1", "A", [], 3600⟩]⟩]).2.efficiency_gain
      = JsNum.negInf ∧
    (mergePreviewOf [⟨"r1", "R1", 0, [⟨"b1", "A", [], 3600⟩]⟩]).2.efficiency_gain
      ≠ JsNum.fin 0 := by
  have h1 : (mergePreviewOf [⟨"r1", "R1", 0, [⟨"b1", "A", [], 3600⟩]⟩]).2.original_duration
      = 0 := by
    norm_num [mergePreviewOf, totalDuration]
  have hsaved : (mergePreviewOf [⟨"r1", "R1", 0, [⟨"b1", "A", [], 3600⟩]⟩]).2.duration_saved
      = -3600 := by
    show totalDuration _ - optimizedDuration (uniqueBranches (allBranches _)) = -3600
    norm_num [totalDuration, optimizedDuration, allBranches, uniqueBranches,
      List.enum, List.enumFrom, List.findIdx, List.findIdx.go,
      List.filter_cons, List.filter_nil]
  have h2 : (mergePreviewOf [⟨"r1", "R1", 0, [⟨"b1", "A", [], 3600⟩]⟩]).2.efficiency_gain
      = JsNum.negInf := by
    show efficiencyGain (totalDuration _ - optimizedDuration (uniqueBranches (allBranches _)))
      (totalDuration _) = JsNum.negInf
    have hs : totalDuration [(⟨"r1", "R1", 0, [⟨"b1", "A", [], 3600⟩]⟩ : Roadmap)] = 0 := by
      norm_num [totalDuration]
    rw [hs]
    have ho : optimizedDuration (uniqueBranches (allBranches
        [(⟨"r1", "R1", 0, [⟨"b1", "A", [], 3600⟩]⟩ : Roadmap)])) = 3600 := by
      norm_num [optimizedDuration, allBranches, uniqueBranches,
        List.enum, List.enumFrom, List.findIdx, List.findIdx.go,
        List.filter_cons, List.filter_nil]
    rw [ho]
    exact efficiencyGain_neg_saved (by norm_num)
  exact ⟨h1, h2, by rw [h2]; intro hfalse; cases hfalse⟩

/-- C9 (amended): the statistics are mutually consistent
(`duration_saved = original - final`, and the efficiency percentage is the
rounded ratio when `original ≠ 0`); when `original = 0` the guard yields 0
only in the `0/0` case, while a non-zero saved duration produces a signed
infinity that `|| 0` keeps. -/
theorem C9_statistics (rs : List Roadmap) :
    (mergePreviewOf rs).2.duration_saved
        = (mergePreviewOf rs).2.original_duration - (mergePreviewOf rs).2.final_duration ∧
    ((mergePreviewOf rs).2.original_duration ≠ 0 →
      (mergePreviewOf rs).2.efficiency_gain
        = JsNum.fin ((⌊(mergePreviewOf rs).2.duration_saved
            / (mergePreviewOf rs).2.original_duration * 100 + 1 / 2⌋ : ℤ) : ℚ)) ∧
    ((mergePreviewOf rs).2.original_duration = 0 →
      (mergePreviewOf rs).2.duration_saved = 0 →
      (mergePreviewOf rs).2.efficiency_gain = JsNum.fin 0) ∧
    ((mergePreviewOf rs).2.original_duration = 0 →
      (mergePreviewOf rs).2.duration_saved < 0 →
      (mergePreviewOf rs).2.efficiency_gain = JsNum.negInf) ∧
    ((mergePreviewOf rs).2.original_duration = 0 →
      0 < (mergePreviewOf rs).2.duration_saved →
      (mergePreviewOf rs).2.efficiency_gain = JsNum.posInf) := by
  refine ⟨rfl, ?_, ?_, ?_, ?_⟩
  · intro h0
    exact efficiencyGain_of_ne h0
  · intro h0 hs
    have he : (mergePreviewOf rs).2.efficiency_gain
        = efficiencyGain (mergePreviewOf rs).2.duration_saved
            (mergePreviewOf rs).2.original_duration := rfl
    rw [he, hs, h0]
    exact efficiencyGain_zero_zero
  · intro h0 hs
    have he : (mergePreviewOf rs).2.efficiency_gain
        = efficiencyGain (mergePreviewOf rs).2.duration_saved
            (mergePreviewOf rs).2.original_duration := rfl
    rw [he, h0]
    exact efficiencyGain_neg_saved hs
  · intro h0 hs
    have he : (mergePreviewOf rs).2.efficiency_gain
        = efficiencyGain (mergePreviewOf rs).2.duration_saved
            (mergePreviewOf rs).2.original_duration := rfl
    rw [he, h0]
    exact efficiencyGain_pos_saved hs


/-- C4 as stated fails: the preview handler has no minimum-count check.
With a single resolvable id the merge engine runs and returns an ordinary
preview over that one roadmap instead of a client error (the embedded
handler is total because the source has no rejection branch; the only
length-2 guard in the repository is a frontend toast). -/
theorem C4_counterexample :
    (previewHandler
        (fun id => if id = "r1" then some ⟨"r1", "R1", 3600, [⟨"b1", "A", [], 3600⟩]⟩ else none)
        ["r1"]).2.original_roadmaps = 1 ∧
    (previewHandler
        (fun id => if id = "r1" then some ⟨"r1", "R1", 3600, [⟨"b1", "A", [], 3600⟩]⟩ else none)
        ["r1"]).1.branches = [⟨"b1", "A", [], 3600⟩] := by
  constructor
  · norm_num [previewHandler, mergePreviewOf, List.filterMap]
  · show uniqueBranches (allBranches _) = _
    norm_num [previewHandler, allBranches, uniqueBranches, List.filterMap,
      List.enum, List.enumFrom, List.findIdx, List.findIdx.go,
      List.filter_cons, List.filter_nil]

/-- C4 (amended): no minimum is enforced at the handler: a request whose
ids resolve to a single roadmap is processed by the merge engine as a
degenerate self-merge of that roadmap (statistics count 1 source); only
the frontend checks the selected count. -/
theorem C4_no_minimum (store : String → Option Roadmap) (ids : List String) (r : Roadmap)
    (h1 : ids.filterMap store = [r]) :
    (previewHandler store ids).2.original_roadmaps = 1 ∧
    (previewHandler store ids).1.branches = uniqueBranches r.branches ∧
    (previewHandler store ids).2.original_duration = r.estimatedDuration := by
  unfold previewHandler
  rw [h1]
  refine ⟨rfl, ?_, ?_⟩
  · show uniqueBranches (allBranches [r]) = _
    simp [allBranches]
  · show totalDuration [r] = _
    simp [totalDuration]

theorem C4_witness :
    (previewHandler
        (fun id => if id = "r1" then some ⟨"r1", "R1", 3600, [⟨"b1", "A", [], 3600⟩]⟩ else none)
        ["r1"]).2.original_roadmaps = 1 :=
  (C4_no_minimum
    (fun id => if id = "r1" then some ⟨"r1", "R1", 3600, [⟨"b1", "A", [], 3600⟩]⟩ else none)
    ["r1"] ⟨"r1", "R1", 3600, [⟨"b1", "A", [], 3600⟩]⟩ (by norm_num [List.filterMap])).1

/-- C3 as stated fails: the merge handler performs no validation of
`daily_study_hours`.  With the value -1 the request is processed (no
rejection path exists) and the scheduler is invoked with the non-positive
budget -1 — the response's calendar is exactly the scheduler's output for
daily hours -1. -/
theorem C3_counterexample :
    (mergeHandler
        (fun id => if id = "r1" then some ⟨"r1", "R1", 3600, [⟨"b1", "A", [], 3600⟩]⟩ else none)
        ⟨["r1", "r1"], "auto", true, some (-1)⟩ 0).calendar
      = some (generateAutoSchedule
          (previewHandler
            (fun id => if id = "r1" then some ⟨"r1", "R1", 3600, [⟨"b1", "A", [], 3600⟩]⟩ else none)
            ["r1", "r1"]).1.branches (-1) 0) ∧
    effectiveDailyHours (some (-1)) = -1 ∧ ¬ (0 < (-1 : ℚ)) := by
  refine ⟨?_, ?_, by norm_num⟩
  · norm_num [mergeHandler, effectiveDailyHours]
  · norm_num [effectiveDailyHours]

theorem packDay_nonpos (b : ℚ) (hb : b ≤ 0) (vs : List TaggedVideo) :
    (packDay b 0 vs).1 = [] := by
  cases vs with
  | nil => rfl
  | cons v rest =>
    have : ¬ ((0 : ℚ) < b) := not_lt.mpr hb
    simp [packDay, this]

theorem scheduleLoop_nonpos (b : ℚ) (hb : b ≤ 0) (s : ℤ) (off : ℕ) (vs : List TaggedVideo) :
    scheduleLoop b s off vs = [] := by
  induction off, vs using scheduleLoop.induct b s with
  | case1 off vs h =>
    rw [scheduleLoop.eq_def]
    simp only [dif_pos h]
  | case2 off vs h d hw ih =>
    rw [scheduleLoop.eq_def]
    simp only [dif_neg h, if_pos hw]
    exact ih
  | case3 off vs h d hw p hp ih =>
    rw [scheduleLoop.eq_def]
    simp only [dif_neg h, if_neg hw, if_pos hp]
    exact ih
  | case4 off vs h d hw p hp ih =>
    exact absurd (packDay_nonpos b hb vs) hp

/-- C3 (amended): the orchestration boundary performs no rejection: a falsy
`daily_study_hours` (absent, or the falsy number 0) silently falls back to
the default 1.0, while a negative value is handed to the scheduler, which
then packs no unit into any day and returns an empty calendar. -/
theorem C3_no_validation (branches : List RoadmapBranch) (start : ℤ) (h : ℚ) (hneg : h < 0) :
    effectiveDailyHours none = 1 ∧ effectiveDailyHours (some 0) = 1 ∧
    effectiveDailyHours (some h) = h ∧
    generateAutoSchedule branches h start = [] := by
  refine ⟨rfl, by norm_num [effectiveDailyHours], by simp [effectiveDailyHours, hneg.ne], ?_⟩
  unfold generateAutoSchedule
  apply scheduleLoop_nonpos
  nlinarith

theorem C3_witness :
    effectiveDailyHours none = 1 ∧ effectiveDailyHours (some 0) = 1 ∧
    effectiveDailyHours (some (-1)) = -1 ∧
    generateAutoSchedule [] (-1) 0 = [] :=
  C3_no_validation [] 0 (-1) (by norm_num)


/-- C6: before packing, the scheduler flattens all branches' videos (tagged
with their branch title) and stably sorts core-first: the sorted sequence
is a permutation of the flattened one, every core video precedes every
non-core video, both groups keep their source-relative order, and the
result is exactly the core part followed by the non-core part (the unique
stable outcome). -/
theorem C6_core_first_stable (branches : List RoadmapBranch) :
    (sortCoreFirst (allVideos branches)).Perm (allVideos branches) ∧
    (sortCoreFirst (allVideos branches)).Pairwise
      (fun a b => b.isCore = true → a.isCore = true) ∧
    (sortCoreFirst (allVideos branches)).filter (·.isCore)
      = (allVideos branches).filter (·.isCore) ∧
    (sortCoreFirst (allVideos branches)).filter (fun v => !v.isCore)
      = (allVideos branches).filter (fun v => !v.isCore) ∧
    sortCoreFirst (allVideos branches)
      = (allVideos branches).filter (·.isCore)
        ++ (allVideos branches).filter (fun v => !v.isCore) := by
  have heq := sortCoreFirst_eq (allVideos branches)
  have hcoremem : ∀ v ∈ (allVideos branches).filter (·.isCore), v.isCore = true :=
    fun v hv => (List.mem_filter.mp hv).2
  have hnonmem : ∀ v ∈ (allVideos branches).filter (fun v => !v.isCore), v.isCore = false :=
    fun v hv => by simpa using (List.mem_filter.mp hv).2
  refine ⟨?_, ?_, ?_, ?_, heq⟩
  · rw [heq]
    exact List.filter_append_perm _ _
  · rw [heq]
    rw [List.pairwise_append]
    refine ⟨?_, ?_, ?_⟩
    · exact List.pairwise_of_forall_mem_list fun a ha b hb => fun _ => hcoremem a ha
    · exact List.pairwise_of_forall_mem_list fun a ha b hb => fun hb2 => by
        rw [hnonmem b hb] at hb2
        cases hb2
    · intro a ha b hb
      exact fun _ => hcoremem a ha
  · rw [heq, List.filter_append]
    have ha : ((allVideos branches).filter (·.isCore)).filter (·.isCore)
        = (allVideos branches).filter (·.isCore) :=
      List.filter_eq_self.mpr (fun v hv => (List.mem_filter.mp hv).2)
    have hb : ((allVideos branches).filter (fun v => !v.isCore)).filter (·.isCore) = [] :=
      List.filter_eq_nil_iff.mpr (fun v hv => by simp [hnonmem v hv])
    rw [ha, hb, List.append_nil]
  · rw [heq, List.filter_append]
    have ha : ((allVideos branches).filter (·.isCore)).filter (fun v => !v.isCore) = [] :=
      List.filter_eq_nil_iff.mpr (fun v hv => by simp [hcoremem v hv])
    have hb : ((allVideos branches).filter (fun v => !v.isCore)).filter (fun v => !v.isCore)
        = (allVideos branches).filter (fun v => !v.isCore) :=
      List.filter_eq_self.mpr (fun v hv => (List.mem_filter.mp hv).2)
    rw [ha, hb, List.nil_append]

/-- C5: for a positive daily budget, units are packed greedily and whole:
every scheduled day's total duration is at most `dailyHours * 3600`, every
scheduled event is one of the flattened tagged input videos stamped with
the fixed display time (never a fraction of one), and the events scheduled
across all days are, in order, the image of a prefix of the sorted unit
sequence — a unit that overflows a day is deferred, never skipped or
reordered. -/
theorem C5_daily_budget (branches : List RoadmapBranch) (dailyHours : ℚ) (start : ℤ)
    (hpos : 0 < dailyHours) :
    (∀ e ∈ generateAutoSchedule branches dailyHours start,
      ((e.2.map (·.duration)).sum ≤ dailyHours * 3600) ∧
      ∀ ev ∈ e.2, ∃ v, v ∈ sortCoreFirst (allVideos branches) ∧ ev = toEvent v) ∧
    (∃ pre rest, sortCoreFirst (allVideos branches) = pre ++ rest ∧
      calendarEvents (generateAutoSchedule branches dailyHours start) = pre.map toEvent) := by
  obtain ⟨pre, rest, hsplit, hevents⟩ :=
    scheduleLoop_split (dailyHours * 3600) start 0 (sortCoreFirst (allVideos branches))
  constructor
  · intro e he
    constructor
    · exact scheduleLoop_day_sum_le _ _ _ _ e he
    · intro ev hev
      have hev2 : ev ∈ calendarEvents (generateAutoSchedule branches dailyHours start) :=
        List.mem_flatMap.mpr ⟨e, he, hev⟩
      rw [generateAutoSchedule, hevents] at hev2
      obtain ⟨v, hv, hveq⟩ := List.mem_map.mp hev2
      exact ⟨v, by rw [hsplit]; exact List.mem_append_left rest hv, hveq.symm⟩
  · exact ⟨pre, rest, hsplit, hevents⟩

theorem C5_witness :
    (((([⟨"v", "V", 1800, true, "B", "09:00"⟩] : List CalendarEvent)).map (·.duration)).sum
      ≤ 1 * 3600) := by
  have hsort : sortCoreFirst (allVideos [⟨"b", "B", [⟨"v", "V", 1800, true⟩], 1800⟩])
      = [⟨"v", "V", 1800, true, "B"⟩] := by
    rw [sortCoreFirst_eq]
    norm_num [allVideos, List.filter_cons, List.filter_nil]
  have hcal : generateAutoSchedule [⟨"b", "B", [⟨"v", "V", 1800, true⟩], 1800⟩] 1 0
      = [((0 : ℤ), [⟨"v", "V", 1800, true, "B", "09:00"⟩])] := by
    rw [generateAutoSchedule, hsort]
    rw [scheduleLoop.eq_def]
    norm_num [getDay, packDay, toEvent]
    rw [scheduleLoop.eq_def]
    norm_num
  exact ((C5_daily_budget [⟨"b", "B", [⟨"v", "V", 1800, true⟩], 1800⟩] 1 0 (by norm_num)).1
    ((0 : ℤ), [⟨"v", "V", 1800, true, "B", "09:00"⟩])
    (by rw [hcal]; exact List.mem_singleton.mpr rfl)).1

/-- C7: no date key of a generated calendar falls on a Saturday (weekday 6)
or a Sunday (weekday 0), for every preview, budget and start day. -/
theorem C7_weekend_skip (branches : List RoadmapBranch) (dailyHours : ℚ) (start : ℤ) :
    ∀ e ∈ generateAutoSchedule branches dailyHours start,
      getDay e.1 ≠ 0 ∧ getDay e.1 ≠ 6 :=
  fun e he => scheduleLoop_keys_weekday (dailyHours * 3600) start 0
    (sortCoreFirst (allVideos branches)) e he

theorem C7_witness : getDay 0 ≠ 0 ∧ getDay 0 ≠ 6 := by
  have hsort : sortCoreFirst (allVideos [⟨"b", "B", [⟨"v", "V", 1800, true⟩], 1800⟩])
      = [⟨"v", "V", 1800, true, "B"⟩] := by
    rw [sortCoreFirst_eq]
    norm_num [allVideos, List.filter_cons, List.filter_nil]
  have hcal : generateAutoSchedule [⟨"b", "B", [⟨"v", "V", 1800, true⟩], 1800⟩] 1 0
      = [((0 : ℤ), [⟨"v", "V", 1800, true, "B", "09:00"⟩])] := by
    rw [generateAutoSchedule, hsort]
    rw [scheduleLoop.eq_def]
    norm_num [getDay, packDay, toEvent]
    rw [scheduleLoop.eq_def]
    norm_num
  exact C7_weekend_skip [⟨"b", "B", [⟨"v", "V", 1800, true⟩], 1800⟩] 1 0
    ((0 : ℤ), [⟨"v", "V", 1800, true, "B", "09:00"⟩])
    (by rw [hcal]; exact List.mem_singleton.mpr rfl)

/-- C8: the scheduler stops at the 30-day cap: when the total flattened
duration exceeds `30 * dailyHours * 3600`, the calendar has at most 30
(distinct, strictly increasing) date keys, every listed day carries at
least one unit, and the scheduled events are the image of a proper prefix
of the sorted unit sequence — the remaining suffix is silently dropped. -/
theorem C8_day_cap (branches : List RoadmapBranch) (dailyHours : ℚ) (start : ℤ)
    (hpos : 0 < dailyHours)
    (hover : 30 * (dailyHours * 3600) < ((allVideos branches).map (·.duration)).sum) :
    (generateAutoSchedule branches dailyHours start).length ≤ 30 ∧
    ((generateAutoSchedule branches dailyHours start).map (·.1)).Nodup ∧
    (∀ e ∈ generateAutoSchedule branches dailyHours start, e.2 ≠ []) ∧
    ∃ pre rest, sortCoreFirst (allVideos branches) = pre ++ rest ∧ rest ≠ [] ∧
      calendarEvents (generateAutoSchedule branches dailyHours start) = pre.map toEvent := by
  have hperm : (sortCoreFirst (allVideos branches)).Perm (allVideos branches) :=
    List.mergeSort_perm (allVideos branches) _
  have hlen := scheduleLoop_length_le (dailyHours * 3600) start 0
    (sortCoreFirst (allVideos branches))
  refine ⟨by simpa using hlen, ?_, scheduleLoop_values_ne_nil _ _ _ _, ?_⟩
  · have hp := scheduleLoop_keys_sorted (dailyHours * 3600) start 0
      (sortCoreFirst (allVideos branches))
    have hnd : ((generateAutoSchedule branches dailyHours start).map (·.1)).Pairwise
        (fun x y : ℤ => x ≠ y) :=
      List.pairwise_map.mpr (hp.imp fun hab => ne_of_lt hab)
    exact hnd
  · obtain ⟨pre, rest, hsplit, hevents⟩ :=
      scheduleLoop_split (dailyHours * 3600) start 0 (sortCoreFirst (allVideos branches))
    refine ⟨pre, rest, hsplit, ?_, hevents⟩
    intro hrest
    rw [hrest, List.append_nil] at hsplit
    have hb0 : (0 : ℚ) ≤ dailyHours * 3600 := by nlinarith
    have hsum : ((calendarEvents (generateAutoSchedule branches dailyHours start)).map
        (·.duration)).sum ≤ 30 * (dailyHours * 3600) := by
      rw [calendarEvents_sum]
      apply sum_le_of_forall_le _ _ hb0
      · intro x hx
        obtain ⟨e, he, hxe⟩ := List.mem_map.mp hx
        rw [← hxe]
        exact scheduleLoop_day_sum_le _ _ _ _ e he
      · simpa using hlen
    rw [generateAutoSchedule, hevents] at hsum
    have h1 : ((pre.map toEvent).map (·.duration)).sum = (pre.map (·.duration)).sum := by
      rw [List.map_map]
      rfl
    have h2 : (pre.map (·.duration)).sum = ((allVideos branches).map (·.duration)).sum := by
      rw [← hsplit]
      exact (hperm.map (·.duration)).sum_eq
    rw [h1, h2] at hsum
    linarith

theorem C8_witness :
    (generateAutoSchedule [⟨"b", "B", [⟨"v", "V", 200000, true⟩], 200000⟩] 1 0).length ≤ 30 :=
  (C8_day_cap [⟨"b", "B", [⟨"v", "V", 200000, true⟩], 200000⟩] 1 0 (by norm_num)
    (by norm_num [allVideos, List.flatMap_cons, List.flatMap_nil])).1

/-- C10: with nonnegative unit durations (the data model's reading of
`duration`) and a positive budget, once the core-first order contains a
unit longer than a whole day's budget, that unit and every unit after it
are never scheduled: the calendar's events are the image of a prefix of
the sorted sequence that ends before the oversized unit, even when later
units would fit individually. -/
theorem C10_oversized_blocks (branches : List RoadmapBranch) (dailyHours : ℚ) (start : ℤ)
    (hpos : 0 < dailyHours)
    (hnn : ∀ v ∈ allVideos branches, 0 ≤ v.duration)
    (pre : List TaggedVideo) (u : TaggedVideo) (post : List TaggedVideo)
    (hsplit : sortCoreFirst (allVideos branches) = pre ++ u :: post)
    (hbig : dailyHours * 3600 < u.duration) :
    ∃ k, k ≤ pre.length ∧
      calendarEvents (generateAutoSchedule branches dailyHours start)
        = ((sortCoreFirst (allVideos branches)).take k).map toEvent := by
  have hperm : (sortCoreFirst (allVideos branches)).Perm (allVideos branches) :=
    List.mergeSort_perm (allVideos branches) _
  have hnn' : ∀ v ∈ sortCoreFirst (allVideos branches), 0 ≤ v.duration :=
    fun v hv => hnn v (hperm.mem_iff.mp hv)
  obtain ⟨consumed, rest, hcs, hevents⟩ :=
    scheduleLoop_split (dailyHours * 3600) start 0 (sortCoreFirst (allVideos branches))
  refine ⟨consumed.length, ?_, ?_⟩
  · by_contra hk
    push_neg at hk
    have hu : (sortCoreFirst (allVideos branches))[pre.length]? = some u := by
      rw [hsplit]
      rw [List.getElem?_append_right (Nat.le_refl pre.length)]
      simp
    have hu2 : consumed[pre.length]? = some u := by
      rw [hcs] at hu
      rwa [List.getElem?_append_left hk] at hu
    have humem : u ∈ consumed := List.getElem?_mem hu2
    have huev : toEvent u ∈ calendarEvents (generateAutoSchedule branches dailyHours start) := by
      rw [generateAutoSchedule, hevents]
      exact List.mem_map_of_mem toEvent humem
    have := scheduleLoop_event_le (dailyHours * 3600) start 0
      (sortCoreFirst (allVideos branches)) hnn' (toEvent u)
      (by rw [generateAutoSchedule] at huev; exact huev)
    have hdur : (toEvent u).duration = u.duration := rfl
    rw [hdur] at this
    linarith
  · rw [generateAutoSchedule, hevents]
    congr 1
    rw [hcs]
    exact (List.take_left consumed rest).symm

theorem C10_witness :
    ∃ k, k ≤ ([] : List TaggedVideo).length ∧
      calendarEvents (generateAutoSchedule
          [⟨"b", "B", [⟨"v", "V", 1000000, true⟩], 1000000⟩] 1 0)
        = ((sortCoreFirst (allVideos
            [⟨"b", "B", [⟨"v", "V", 1000000, true⟩], 1000000⟩])).take k).map toEvent := by
  have hsort : sortCoreFirst (allVideos [⟨"b", "B", [⟨"v", "V", 1000000, true⟩], 1000000⟩])
      = [] ++ (⟨"v", "V", 1000000, true, "B"⟩ : TaggedVideo) :: [] := by
    rw [sortCoreFirst_eq]
    norm_num [allVideos, List.filter_cons, List.filter_nil]
  exact C10_oversized_blocks [⟨"b", "B", [⟨"v", "V", 1000000, true⟩], 1000000⟩] 1 0
    (by norm_num)
    (by
      intro v hv
      norm_num [allVideos] at hv
      rw [hv]
      norm_num)
    [] ⟨"v", "V", 1000000, true, "B"⟩ [] hsort (by norm_num)

end Mantrix
